import Mathlib

/-!
Verification of the dependency-analysis core of the viper-ide extension.

The definitions below are a shallow embedding of the TypeScript source
(`DependencyAnalysis` in its two variants: the graph-panel variant and the
older client variant).  Pure string/array manipulations become functions on
`List Char` / `List`; the JavaScript `Set`-based deduplication becomes an
explicit accumulator list; the recursive bypass resolution with its shared
mutable `visited` set becomes an explicit-stack depth-first search threading
the visited list.
-/

namespace DepAnalysis

/-! ## Line-content records (exportLinesToCSV / loadGraphFromCSV)

`exportLinesToCSV` writes each (trimmed) source line as
`lineNumber,"<content with every double quote doubled>"`; `loadGraphFromCSV`
reads a record back with the regex `^(\d+),"(.*)"` and halves doubled quotes.
-/

/-- The `replace` escaping of `exportLinesToCSV`: every double
quote of the content is doubled. -/
def escapeQuotes : List Char → List Char
  | [] => []
  | c :: rest =>
    if c = '"' then '"' :: '"' :: escapeQuotes rest
    else c :: escapeQuotes rest

/-- The unescaping of `loadGraphFromCSV`: scanning left
to right, each non-overlapping pair of double quotes becomes one. -/
def unescapeQuotes : List Char → List Char
  | [] => []
  | [c] => [c]
  | c :: d :: rest =>
    if c = '"' ∧ d = '"' then '"' :: unescapeQuotes rest
    else c :: unescapeQuotes (d :: rest)

/-- Decimal rendering of a natural number, as JavaScript template
interpolation of the line number produces it. -/
def natDecimalDigits (n : Nat) : List Char :=
  if n = 0 then ['0'] else ((Nat.digits 10 n).map Nat.digitChar).reverse

/-- Numeric value of a decimal digit character. -/
def digitVal (c : Char) : Nat := c.toNat - 48

/-- JavaScript parseInt on a string of decimal digits. -/
def parseNatDigits (cs : List Char) : Nat :=
  cs.foldl (fun a c => a * 10 + digitVal c) 0

/-- One record of lines.csv: the line number, a comma, and the escaped
content in double quotes.  (The source trims the raw line before escaping;
`content` here is the stored, already trimmed text of the line.) -/
def encodeLineRecord (n : Nat) (content : List Char) : List Char :=
  natDecimalDigits n ++ ',' :: '"' :: (escapeQuotes content ++ ['"'])

/-- Characters the JavaScript regex dot does not match (the line terminators
that can occur in these byte strings). -/
def isLineTerm (c : Char) : Bool := c = '\n' ∨ c = '\r'

/-- The record parser of `loadGraphFromCSV`: a leading digit group, a comma,
an opening quote, then a greedy capture running to the last quote reachable
without crossing a line terminator, followed by unescaping of doubled
quotes. -/
def decodeLineRecord (cs : List Char) : Option (Nat × List Char) :=
  let ds := cs.takeWhile Char.isDigit
  if ds = [] then none
  else
    match cs.dropWhile Char.isDigit with
    | ',' :: '"' :: rest =>
      match ((rest.takeWhile (fun c => !(isLineTerm c))).reverse.dropWhile
          (fun c => !(c = '"'))) with
      | [] => none
      | _ :: t => some (parseNatDigits ds, unescapeQuotes t.reverse)
    | _ => none

/-! Helper lemmas for the round trip. -/

theorem escapeQuotes_eq_nil {l : List Char} (h : escapeQuotes l = []) : l = [] := by
  cases l with
  | nil => rfl
  | cons c rest =>
    by_cases hc : c = '"' <;> simp [escapeQuotes, hc] at h

theorem unescape_escape (l : List Char) : unescapeQuotes (escapeQuotes l) = l := by
  induction l with
  | nil => rfl
  | cons c rest ih =>
    by_cases hc : c = '"'
    · subst hc
      simp only [escapeQuotes, if_pos rfl]
      cases he : escapeQuotes rest with
      | nil =>
        have h0 : rest = [] := escapeQuotes_eq_nil he
        subst h0
        simp [unescapeQuotes]
      | cons d es =>
        rw [← he]
        simpa [unescapeQuotes] using ih
    · rw [escapeQuotes, if_neg hc]
      cases he : escapeQuotes rest with
      | nil =>
        have h0 : rest = [] := escapeQuotes_eq_nil he
        subst h0
        simp [unescapeQuotes]
      | cons d es =>
        rw [unescapeQuotes, if_neg (by simp [hc])]
        rw [← he, ih]

theorem mem_escapeQuotes {c : Char} {l : List Char} (h : c ∈ escapeQuotes l) :
    c ∈ l ∨ c = '"' := by
  induction l with
  | nil => simp [escapeQuotes] at h
  | cons d rest ih =>
    by_cases hd : d = '"'
    · subst hd
      rw [escapeQuotes, if_pos rfl] at h
      simp only [List.mem_cons] at h
      rcases h with h | h | h
      · exact Or.inr h
      · exact Or.inr h
      · rcases ih h with h | h
        · exact Or.inl (List.mem_cons_of_mem _ h)
        · exact Or.inr h
    · rw [escapeQuotes, if_neg hd] at h
      rcases List.mem_cons.mp h with h | h
      · subst h
        exact Or.inl (List.mem_cons_self _ _)
      · rcases ih h with h | h
        · exact Or.inl (List.mem_cons_of_mem _ h)
        · exact Or.inr h

theorem takeWhile_all_append (p : Char → Bool) (l₁ l₂ : List Char)
    (h : ∀ c ∈ l₁, p c = true) :
    (l₁ ++ l₂).takeWhile p = l₁ ++ l₂.takeWhile p := by
  induction l₁ with
  | nil => simp
  | cons c rest ih =>
    simp [List.takeWhile_cons, h c (List.mem_cons_self _ _),
      ih (fun d hd => h d (List.mem_cons_of_mem _ hd))]

theorem dropWhile_all_append (p : Char → Bool) (l₁ l₂ : List Char)
    (h : ∀ c ∈ l₁, p c = true) :
    (l₁ ++ l₂).dropWhile p = l₂.dropWhile p := by
  induction l₁ with
  | nil => simp
  | cons c rest ih =>
    simp [List.dropWhile_cons, h c (List.mem_cons_self _ _),
      ih (fun d hd => h d (List.mem_cons_of_mem _ hd))]

theorem takeWhile_all (p : Char → Bool) (l : List Char)
    (h : ∀ c ∈ l, p c = true) : l.takeWhile p = l := by
  simpa using takeWhile_all_append p l [] h

theorem digitVal_digitChar {d : Nat} (hd : d < 10) :
    digitVal (Nat.digitChar d) = d := by
  interval_cases d <;> rfl

theorem isDigit_digitChar {d : Nat} (hd : d < 10) :
    (Nat.digitChar d).isDigit = true := by
  interval_cases d <;> rfl

theorem natDecimalDigits_all_digits (n : Nat) :
    ∀ c ∈ natDecimalDigits n, c.isDigit = true := by
  intro c hc
  by_cases hn : n = 0
  · subst hn
    have h0 : natDecimalDigits 0 = ['0'] := rfl
    rw [h0, List.mem_singleton] at hc
    subst hc
    rfl
  · simp only [natDecimalDigits, if_neg hn, List.mem_reverse, List.mem_map] at hc
    obtain ⟨d, hd, rfl⟩ := hc
    exact isDigit_digitChar (Nat.digits_lt_base (by norm_num) hd)

theorem natDecimalDigits_ne_nil (n : Nat) : natDecimalDigits n ≠ [] := by
  by_cases hz : n = 0
  · subst hz
    simp [natDecimalDigits]
  · simp only [natDecimalDigits, if_neg hz, ne_eq, List.reverse_eq_nil_iff,
      List.map_eq_nil_iff]
    exact Nat.digits_ne_nil_iff_ne_zero.mpr hz

theorem parseNatDigits_rev_map (ds : List Nat) (h : ∀ d ∈ ds, d < 10) :
    parseNatDigits ((ds.map Nat.digitChar).reverse) = Nat.ofDigits 10 ds := by
  induction ds with
  | nil => rfl
  | cons d rest ih =>
    simp only [List.map_cons, List.reverse_cons]
    unfold parseNatDigits
    rw [List.foldl_append]
    have hrest : parseNatDigits ((rest.map Nat.digitChar).reverse) =
        Nat.ofDigits 10 rest := ih (fun d hd => h d (List.mem_cons_of_mem _ hd))
    unfold parseNatDigits at hrest
    rw [hrest]
    simp only [List.foldl_cons, List.foldl_nil]
    rw [digitVal_digitChar (h d (List.mem_cons_self _ _))]
    rw [Nat.ofDigits_cons]
    ring

theorem parseNatDigits_natDecimalDigits (n : Nat) :
    parseNatDigits (natDecimalDigits n) = n := by
  by_cases hn : n = 0
  · subst hn
    rfl
  · rw [natDecimalDigits, if_neg hn]
    rw [parseNatDigits_rev_map _ (fun d hd => Nat.digits_lt_base (by norm_num) hd)]
    exact Nat.ofDigits_digits 10 n

/-- C8: round-trip escaping of line content.  Encoding a line's content into
the lines.csv record format (doubling every double quote) and decoding it
back with the reader's regex and unescaping yields the original content
exactly, for every content string free of line terminators (a source line,
produced by splitting the file at newlines, contains none); this includes
content containing double quotes. -/
theorem c8_line_content_roundtrip (n : Nat) (content : List Char)
    (hn : '\n' ∉ content) (hr : '\r' ∉ content) :
    decodeLineRecord (encodeLineRecord n content) = some (n, content) := by
  have hD : (encodeLineRecord n content).takeWhile Char.isDigit =
      natDecimalDigits n := by
    unfold encodeLineRecord
    rw [takeWhile_all_append _ _ _ (natDecimalDigits_all_digits n)]
    simp [List.takeWhile_cons]
  have hDrop : (encodeLineRecord n content).dropWhile Char.isDigit =
      ',' :: '"' :: (escapeQuotes content ++ ['"']) := by
    unfold encodeLineRecord
    rw [dropWhile_all_append _ _ _ (natDecimalDigits_all_digits n)]
    simp [List.dropWhile_cons]
  have hterm : ∀ c ∈ escapeQuotes content ++ ['"'], (!(isLineTerm c)) = true := by
    intro c hc
    have hcq : c ∈ content ∨ c = '"' := by
      rcases List.mem_append.mp hc with hc1 | hc1
      · exact mem_escapeQuotes hc1
      · simp only [List.mem_singleton] at hc1
        exact Or.inr hc1
    simp only [isLineTerm, Bool.not_eq_true', decide_eq_false_iff_not]
    rcases hcq with hc1 | rfl
    · rintro (rfl | rfl)
      · exact hn hc1
      · exact hr hc1
    · rintro (h | h) <;> simp_all
  simp only [decodeLineRecord, hD, hDrop]
  rw [if_neg (natDecimalDigits_ne_nil n)]
  rw [takeWhile_all _ _ hterm]
  rw [List.reverse_append]
  simp only [List.reverse_cons, List.reverse_nil, List.nil_append,
    List.singleton_append, List.dropWhile_cons]
  norm_num
  exact ⟨parseNatDigits_natDecimalDigits n, unescape_escape content⟩

/-- C8 witness: the spec's own example — a line containing quotes, `He said
"hi"`, encoded on line 4 and decoded back unchanged. -/
theorem c8_line_content_roundtrip_witness :
    decodeLineRecord (encodeLineRecord 4 (String.toList ("He said \"hi\""))) =
      some (4, String.toList ("He said \"hi\"")) :=
  c8_line_content_roundtrip 4 (String.toList ("He said \"hi\"")) (by decide)
    (by decide)

/-! ## highlightLines (editor decoration application)

Both variants of `highlightLines` receive a selected line number and the
direct/indirect neighbor lists computed by the graph view, validate the
selected line against the document's line count, clear the five decoration
types, filter the neighbor lists to in-range lines distinct from the selected
line, apply the decorations and scroll.  The observable outcome is captured
as a record; the function is total, so no input makes it throw.

The graph-panel variant checks `lineNumber < 0 || lineNumber > lineCount` and
treats line 0 (sent by the graph when the user deselects a node) as a request
to clear all decorations; the older client variant checks
`lineNumber < 1 || lineNumber > lineCount`.
-/

/-- Observable outcome of one `highlightLines` call: whether the out-of-range
warning was shown, whether all five decoration types were cleared, the
selected-line decoration, the direct and indirect line decorations actually
applied, and whether the editor scrolled to the line. -/
structure HighlightOutcome where
  warned : Bool
  clearedAllFive : Bool
  selApplied : Option Int
  directApplied : List Int
  indirectApplied : List Int
  scrolled : Bool
deriving DecidableEq, Repr

/-- Neighbor filter shared by both variants: keep lines within the document
and distinct from the selected line. -/
def inRangeNeighbor (lineCount : Nat) (lineNumber : Int) (n : Int) : Bool :=
  n ≥ 1 ∧ n ≤ (lineCount : Int) ∧ n ≠ lineNumber

/-- The graph-panel variant of `highlightLines`. -/
def highlightLines (lineCount : Nat) (lineNumber : Int)
    (neighbors indirectNeighbors : List Int) : HighlightOutcome :=
  if lineNumber < 0 ∨ lineNumber > (lineCount : Int) then
    ⟨true, false, none, [], [], false⟩
  else if lineNumber = 0 then
    ⟨false, true, none, [], [], false⟩
  else
    ⟨false, true, some lineNumber,
      neighbors.filter (inRangeNeighbor lineCount lineNumber),
      indirectNeighbors.filter (inRangeNeighbor lineCount lineNumber),
      true⟩

/-- The older client variant of `highlightLines`. -/
def highlightLinesClient (lineCount : Nat) (lineNumber : Int)
    (neighbors indirectNeighbors : List Int) : HighlightOutcome :=
  if lineNumber < 1 ∨ lineNumber > (lineCount : Int) then
    ⟨true, false, none, [], [], false⟩
  else
    ⟨false, true, some lineNumber,
      neighbors.filter (inRangeNeighbor lineCount lineNumber),
      indirectNeighbors.filter (inRangeNeighbor lineCount lineNumber),
      true⟩

/-- The highlight request the graph panel's node click handler posts when the
user clicks the already selected node: line 0 with empty neighbor sets. -/
def deselectRequest : Int × List Int × List Int := (0, [], [])

/-- C7 counterexample: the claim says every selected line below 1 triggers
the out-of-range warning, yet the graph-panel variant accepts line 0 (its
check is against 0, not 1): no warning is shown and the decorations are
cleared instead. -/
theorem c7_counterexample :
    highlightLines 10 0 [] [] = ⟨false, true, none, [], [], false⟩ := by
  decide

/-- C7 amended: out of range means negative or beyond the line count in the
graph-panel variant (line 0 being the accepted deselection sentinel), and
below 1 or beyond the line count in the client variant.  For such queries
both variants warn, apply and clear no decorations, return an empty result
and do not scroll; both functions are total, so no query throws. -/
theorem c7_out_of_range (lineCount : Nat) (lineNumber : Int)
    (neighbors indirectNeighbors : List Int) :
    (lineNumber < 0 ∨ lineNumber > (lineCount : Int) →
      highlightLines lineCount lineNumber neighbors indirectNeighbors =
        ⟨true, false, none, [], [], false⟩) ∧
    (lineNumber < 1 ∨ lineNumber > (lineCount : Int) →
      highlightLinesClient lineCount lineNumber neighbors indirectNeighbors =
        ⟨true, false, none, [], [], false⟩) := by
  constructor
  · intro h
    rw [highlightLines, if_pos h]
  · intro h
    rw [highlightLinesClient, if_pos h]

/-- C7 witness: the amended theorem applied at concrete out-of-range inputs
(line -1 for the graph-panel variant, line 0 for the client variant of a
five-line document). -/
theorem c7_out_of_range_witness :
    highlightLines 5 (-1) [3] [4] = ⟨true, false, none, [], [], false⟩ ∧
    highlightLinesClient 5 0 [3] [4] = ⟨true, false, none, [], [], false⟩ :=
  ⟨(c7_out_of_range 5 (-1) [3] [4]).1 (Or.inl (by decide)),
   (c7_out_of_range 5 0 [3] [4]).2 (Or.inl (by decide))⟩

/-- C9: for every in-range selected line, the direct and indirect decoration
sets actually applied (by either variant) contain only line numbers `n` with
`1 ≤ n ≤ lineCount` and `n ≠ lineNumber`: out-of-range neighbors received
from the graph view are dropped and the selected line never appears in its
own neighbor sets, so every per-line document access is within bounds. -/
theorem c9_applied_neighbors_in_bounds (lineCount : Nat) (lineNumber : Int)
    (neighbors indirectNeighbors : List Int)
    (h1 : 1 ≤ lineNumber) (h2 : lineNumber ≤ (lineCount : Int)) :
    ∀ n, (n ∈ (highlightLines lineCount lineNumber neighbors
            indirectNeighbors).directApplied ∨
          n ∈ (highlightLines lineCount lineNumber neighbors
            indirectNeighbors).indirectApplied ∨
          n ∈ (highlightLinesClient lineCount lineNumber neighbors
            indirectNeighbors).directApplied ∨
          n ∈ (highlightLinesClient lineCount lineNumber neighbors
            indirectNeighbors).indirectApplied) →
      1 ≤ n ∧ n ≤ (lineCount : Int) ∧ n ≠ lineNumber := by
  intro n hmem
  have hcond : ∀ m : Int, inRangeNeighbor lineCount lineNumber m = true →
      1 ≤ m ∧ m ≤ (lineCount : Int) ∧ m ≠ lineNumber := by
    intro m hm
    simp only [inRangeNeighbor, ge_iff_le, ne_eq, Bool.decide_and,
      Bool.and_eq_true, decide_eq_true_eq] at hm
    exact ⟨hm.1, hm.2.1, hm.2.2⟩
  have hno : ¬(lineNumber < 0 ∨ lineNumber > (lineCount : Int)) := by
    push_neg
    constructor <;> omega
  have hno1 : ¬(lineNumber < 1 ∨ lineNumber > (lineCount : Int)) := by
    push_neg
    constructor <;> omega
  have hnz : ¬lineNumber = 0 := by omega
  rw [highlightLines, if_neg hno, if_neg hnz] at hmem
  rw [highlightLinesClient, if_neg hno1] at hmem
  simp only [List.mem_filter] at hmem
  rcases hmem with h | h | h | h <;> exact hcond n h.2

/-- C9 witness: a five-line document with selected line 2; the neighbor lists
contain out-of-range entries and the selected line itself, and the theorem is
applied to the one surviving entry, line 3. -/
theorem c9_applied_neighbors_in_bounds_witness :
    1 ≤ (3 : Int) ∧ (3 : Int) ≤ (5 : Nat) ∧ (3 : Int) ≠ 2 :=
  c9_applied_neighbors_in_bounds 5 2 [0, 3, 7, 2] [] (by decide) (by decide)
    3 (Or.inl (by decide))

/-- C10: selected line 0 is accepted as a deselection sentinel by the
graph-panel variant — the request the node click handler sends when the user
clicks the already selected node passes the range check, clears all five
decoration types, and returns without applying any decoration, without
scrolling and without warning, whatever the document length and whatever
neighbor lists accompany the request. -/
theorem c10_deselect_sentinel (lineCount : Nat)
    (neighbors indirectNeighbors : List Int) :
    highlightLines lineCount deselectRequest.1 neighbors indirectNeighbors =
      ⟨false, true, none, [], [], false⟩ := by
  have hno : ¬((deselectRequest.1 : Int) < 0 ∨
      (deselectRequest.1 : Int) > (lineCount : Int)) := by
    simp only [deselectRequest]
    omega
  rw [highlightLines, if_neg hno, if_pos (show deselectRequest.1 = 0 from rfl)]

/-! ## Edge translation (translateEdgesToLineNumbers)

Both variants translate raw edge records `(sourceId, targetId, label)` to
line-number rows for the derived edge file, keeping a row only when both ids
resolve through the id-to-line map and the lines differ, and deduplicating by
the full row key: source line, target line, and label. -/

/-- The edge-translation loop of `translateEdgesToLineNumbers`: `seen` is the
accumulated set of already emitted row keys. -/
def translateEdges (nodeToLine : String → Option Nat) :
    List (String × String × String) → List (Nat × Nat × String) →
      List (Nat × Nat × String)
  | [], _ => []
  | (s, t, lab) :: rest, seen =>
    match nodeToLine s, nodeToLine t with
    | some sl, some tl =>
      if sl ≠ tl ∧ (sl, tl, lab) ∉ seen then
        (sl, tl, lab) :: translateEdges nodeToLine rest ((sl, tl, lab) :: seen)
      else translateEdges nodeToLine rest seen
    | _, _ => translateEdges nodeToLine rest seen

/-! ## Intra-file raw edges (loadGraphFromCSV, graph-panel variant)

`loadGraphFromCSV` walks the raw edge records and keeps `(sourceLine,
targetLine)` in `rawEdges` only when both ids resolve to a line and a file,
both files equal the analyzed file, the lines differ, and the pair was not
seen before. -/

/-- The rawEdges loop of `loadGraphFromCSV`.  `resolveLine`/`resolveFile` are
the `nodeIdToLine`/`nodeIdToFile` maps built from nodes.csv; `seen` is the
set of already kept `(source, target)` keys. -/
def rawEdges (resolveLine : String → Option Nat)
    (resolveFile : String → Option String) (analyzed : String) :
    List (String × String) → List (Nat × Nat) → List (Nat × Nat)
  | [], _ => []
  | (s, t) :: rest, seen =>
    match resolveLine s, resolveFile s, resolveLine t, resolveFile t with
    | some sl, some sf, some tl, some tf =>
      if sf = analyzed ∧ tf = analyzed ∧ sl ≠ tl ∧ (sl, tl) ∉ seen then
        (sl, tl) :: rawEdges resolveLine resolveFile analyzed rest ((sl, tl) :: seen)
      else rawEdges resolveLine resolveFile analyzed rest seen
    | _, _, _, _ => rawEdges resolveLine resolveFile analyzed rest seen

/-! ## Bypass resolution (resolveRealSources)

`resolveRealSources(line, visited)` marks `line` visited, returns `[line]`
when the line is not ExplicitAssertion-tagged or has no parents, and
otherwise recurses through the parents of `line`, sharing one mutable
visited set across the whole resolution.  The embedding is the equivalent
explicit-stack depth-first search: the stack holds the lines still to
process, and the visited list is threaded through exactly as the shared
set is. -/

/-- All line numbers occurring in a raw edge list. -/
def linesOf (edges : List (Nat × Nat)) : List Nat :=
  edges.map Prod.fst ++ edges.map Prod.snd

/-- The parentMap of `loadGraphFromCSV`: the sources of the raw edges whose
target is `t`. -/
def parentsOf (edges : List (Nat × Nat)) (t : Nat) : List Nat :=
  (edges.filter (fun e => e.2 = t)).map Prod.fst

/-- `shouldBypass` of `loadGraphFromCSV`: a line is bypassed when its
category list includes ExplicitAssertion. -/
def shouldBypass (cats : List String) : Bool :=
  cats.contains ("ExplicitAssertion")

theorem parentsOf_ne_nil_mem {edges : List (Nat × Nat)} {line : Nat}
    (h : parentsOf edges line ≠ []) : line ∈ linesOf edges := by
  rcases List.exists_mem_of_ne_nil _ h with ⟨p, hp⟩
  simp only [parentsOf, List.mem_map, List.mem_filter, decide_eq_true_eq] at hp
  obtain ⟨e, ⟨he, hline⟩, _⟩ := hp
  subst hline
  exact List.mem_append_right _ (List.mem_map_of_mem _ he)

theorem visitMeasure_le (edges : List (Nat × Nat)) (visited : List Nat)
    (a : Nat) :
    ((linesOf edges).toFinset \ (a :: visited).toFinset).card ≤
      ((linesOf edges).toFinset \ visited.toFinset).card := by
  apply Finset.card_le_card
  apply Finset.sdiff_subset_sdiff (Finset.Subset.refl _)
  rw [List.toFinset_cons]
  exact Finset.subset_insert _ _

theorem visitMeasure_lt (edges : List (Nat × Nat)) (visited : List Nat)
    (a : Nat) (ha : a ∈ linesOf edges) (hv : a ∉ visited) :
    ((linesOf edges).toFinset \ (a :: visited).toFinset).card <
      ((linesOf edges).toFinset \ visited.toFinset).card := by
  rw [List.toFinset_cons, Finset.sdiff_insert]
  apply Finset.card_erase_lt_of_mem
  rw [Finset.mem_sdiff]
  exact ⟨List.mem_toFinset.mpr ha, fun h => hv (List.mem_toFinset.mp h)⟩

/-- `resolveRealSources` as an explicit-stack depth-first search over the
reverse adjacency, threading the per-resolution visited set: a visited line
is skipped; an unvisited line is marked, collected when it is not bypassed
(no ExplicitAssertion tag, or no parents), and otherwise expanded into its
parents, which are processed before the rest of the stack. -/
def resolveWork (edges : List (Nat × Nat)) (cats : Nat → List String) :
    List Nat → List Nat → List Nat
  | [], _ => []
  | line :: stack, visited =>
    if h1 : line ∈ visited then resolveWork edges cats stack visited
    else if h2 : shouldBypass (cats line) = false then
      line :: resolveWork edges cats stack (line :: visited)
    else if h3 : parentsOf edges line = [] then
      line :: resolveWork edges cats stack (line :: visited)
    else resolveWork edges cats (parentsOf edges line ++ stack) (line :: visited)
termination_by stack visited =>
  (((linesOf edges).toFinset \ visited.toFinset).card, stack.length)
decreasing_by
· exact Prod.Lex.right _ (by simp)
· rcases lt_or_eq_of_le (visitMeasure_le edges visited line) with h | h
  · exact Prod.Lex.left _ _ h
  · rw [h]
    exact Prod.Lex.right _ (by simp)
· rcases lt_or_eq_of_le (visitMeasure_le edges visited line) with h | h
  · exact Prod.Lex.left _ _ h
  · rw [h]
    exact Prod.Lex.right _ (by simp)
· exact Prod.Lex.left _ _
    (visitMeasure_lt edges visited line (parentsOf_ne_nil_mem h3) h1)

/-- Top-level `resolveRealSources(edge.source, new Set())`: the DFS from one
line with a fresh visited set. -/
def resolveRealSources (edges : List (Nat × Nat)) (cats : Nat → List String)
    (line : Nat) : List Nat :=
  resolveWork edges cats [line] []

/-- The resolved-edge deduplication of `loadGraphFromCSV`: keep the first
occurrence of every `(realSource, target)` pair across the whole rewrite
pass (`resolvedEdgeKeys`). -/
def dedupPairs : List (Nat × Nat) → List (Nat × Nat) → List (Nat × Nat)
  | [], _ => []
  | p :: rest, seen =>
    if p ∈ seen then dedupPairs rest seen
    else p :: dedupPairs rest (p :: seen)

/-- The rewrite pass of `loadGraphFromCSV` before deduplication: for every
raw edge, every resolved real source of its source becomes an edge to its
target, self-edges dropped. -/
def resolvedPairs (edges : List (Nat × Nat)) (cats : Nat → List String) :
    List (Nat × Nat) :=
  (edges.map (fun e =>
    ((resolveRealSources edges cats e.1).filter (fun r => r ≠ e.2)).map
      (fun r => (r, e.2)))).flatten

/-- The final edge set of the built graph: the rewrite pass deduplicated by
`(source, target)` pair. -/
def finalEdges (edges : List (Nat × Nat)) (cats : Nat → List String) :
    List (Nat × Nat) :=
  dedupPairs (resolvedPairs edges cats) []

/-! Helper lemmas about the accumulator-based loops. -/

theorem dedupPairs_subset :
    ∀ (l seen : List (Nat × Nat)) (p : Nat × Nat),
      p ∈ dedupPairs l seen → p ∈ l := by
  intro l
  induction l with
  | nil =>
    intro seen p hp
    rw [dedupPairs] at hp
    simp at hp
  | cons q rest ih =>
    intro seen p hp
    rw [dedupPairs] at hp
    by_cases hq : q ∈ seen
    · rw [if_pos hq] at hp
      exact List.mem_cons_of_mem _ (ih _ _ hp)
    · rw [if_neg hq] at hp
      rcases List.mem_cons.mp hp with h | h
      · exact h ▸ List.mem_cons_self _ _
      · exact List.mem_cons_of_mem _ (ih _ _ h)

theorem dedupPairs_nodup :
    ∀ (l seen : List (Nat × Nat)),
      (∀ p ∈ dedupPairs l seen, p ∉ seen) ∧ (dedupPairs l seen).Nodup := by
  intro l
  induction l with
  | nil =>
    intro seen
    rw [dedupPairs]
    simp
  | cons q rest ih =>
    intro seen
    rw [dedupPairs]
    by_cases hq : q ∈ seen
    · rw [if_pos hq]
      exact ih seen
    · rw [if_neg hq]
      refine ⟨?_, ?_⟩
      · intro p hp
        rcases List.mem_cons.mp hp with h | h
        · exact h ▸ hq
        · exact fun hps => (ih (q :: seen)).1 p h (List.mem_cons_of_mem _ hps)
      · rw [List.nodup_cons]
        exact ⟨fun hq' => (ih (q :: seen)).1 q hq' (List.mem_cons_self _ _),
          (ih (q :: seen)).2⟩

/-- Every line collected by the DFS is a terminal of the bypass (not
ExplicitAssertion-tagged, or without parents) and was not on the visited
path when the resolution started. -/
theorem resolveWork_mem (edges : List (Nat × Nat)) (cats : Nat → List String) :
    ∀ (stack visited : List Nat) (r : Nat),
      r ∈ resolveWork edges cats stack visited →
      (shouldBypass (cats r) = false ∨ parentsOf edges r = []) ∧ r ∉ visited := by
  intro stack visited
  induction stack, visited using resolveWork.induct edges cats with
  | case1 v =>
    intro r hr
    rw [resolveWork] at hr
    simp at hr
  | case2 line stack visited h1 ih =>
    intro r hr
    rw [resolveWork, dif_pos h1] at hr
    exact ih r hr
  | case3 line stack visited h1 h2 ih =>
    intro r hr
    rw [resolveWork, dif_neg h1, dif_pos h2] at hr
    rcases List.mem_cons.mp hr with h | h
    · subst h
      exact ⟨Or.inl h2, h1⟩
    · obtain ⟨hterm, hnv⟩ := ih r h
      exact ⟨hterm, fun hv => hnv (List.mem_cons_of_mem _ hv)⟩
  | case4 line stack visited h1 h2 h3 ih =>
    intro r hr
    rw [resolveWork, dif_neg h1, dif_neg h2, dif_pos h3] at hr
    rcases List.mem_cons.mp hr with h | h
    · subst h
      exact ⟨Or.inr h3, h1⟩
    · obtain ⟨hterm, hnv⟩ := ih r h
      exact ⟨hterm, fun hv => hnv (List.mem_cons_of_mem _ hv)⟩
  | case5 line stack visited h1 h2 h3 ih =>
    intro r hr
    rw [resolveWork, dif_neg h1, dif_neg h2, dif_neg h3] at hr
    obtain ⟨hterm, hnv⟩ := ih r hr
    exact ⟨hterm, fun hv => hnv (List.mem_cons_of_mem _ hv)⟩

/-- Every pair kept by the rawEdges loop comes from a record whose endpoints
both resolve, whose files both equal the analyzed file, and whose lines
differ. -/
theorem rawEdges_spec (rL : String → Option Nat) (rF : String → Option String)
    (an : String) :
    ∀ (records : List (String × String)) (seen : List (Nat × Nat))
      (p : Nat × Nat), p ∈ rawEdges rL rF an records seen →
      ∃ r ∈ records, rL r.1 = some p.1 ∧ rF r.1 = some an ∧
        rL r.2 = some p.2 ∧ rF r.2 = some an ∧ p.1 ≠ p.2 := by
  intro records
  induction records with
  | nil =>
    intro seen p hp
    rw [rawEdges] at hp
    simp at hp
  | cons rec rest ih =>
    intro seen p hp
    obtain ⟨s, t⟩ := rec
    rw [rawEdges] at hp
    split at hp
    · next sl sf tl tf hLs hFs hLt hFt =>
      split at hp
      · next hcond =>
        rcases List.mem_cons.mp hp with h | h
        · subst h
          exact ⟨(s, t), List.mem_cons_self _ _, hLs, hcond.1 ▸ hFs,
            hLt, hcond.2.1 ▸ hFt, hcond.2.2.1⟩
        · obtain ⟨r, hr, hrest⟩ := ih _ _ h
          exact ⟨r, List.mem_cons_of_mem _ hr, hrest⟩
      · obtain ⟨r, hr, hrest⟩ := ih _ _ hp
        exact ⟨r, List.mem_cons_of_mem _ hr, hrest⟩
    · next =>
      obtain ⟨r, hr, hrest⟩ := ih _ _ hp
      exact ⟨r, List.mem_cons_of_mem _ hr, hrest⟩

/-- The rawEdges loop never emits a pair already seen, and emits no pair
twice. -/
theorem rawEdges_nodup (rL : String → Option Nat) (rF : String → Option String)
    (an : String) :
    ∀ (records : List (String × String)) (seen : List (Nat × Nat)),
      (∀ p ∈ rawEdges rL rF an records seen, p ∉ seen) ∧
      (rawEdges rL rF an records seen).Nodup := by
  intro records
  induction records with
  | nil =>
    intro seen
    rw [rawEdges]
    simp
  | cons rec rest ih =>
    intro seen
    obtain ⟨s, t⟩ := rec
    rw [rawEdges]
    split
    · next sl sf tl tf hLs hFs hLt hFt =>
      split
      · next hcond =>
        refine ⟨?_, ?_⟩
        · intro p hp
          rcases List.mem_cons.mp hp with h | h
          · exact h ▸ hcond.2.2.2
          · exact fun hps => (ih ((sl, tl) :: seen)).1 p h
              (List.mem_cons_of_mem _ hps)
        · rw [List.nodup_cons]
          exact ⟨fun hq => (ih ((sl, tl) :: seen)).1 _ hq
            (List.mem_cons_self _ _), (ih ((sl, tl) :: seen)).2⟩
      · exact ih seen
    · next =>
      exact ih seen

/-- The translation loop never emits a row key already seen, and emits no
row key (source line, target line, label) twice. -/
theorem translateEdges_nodup (nodeToLine : String → Option Nat) :
    ∀ (records : List (String × String × String))
      (seen : List (Nat × Nat × String)),
      (∀ p ∈ translateEdges nodeToLine records seen, p ∉ seen) ∧
      (translateEdges nodeToLine records seen).Nodup := by
  intro records
  induction records with
  | nil =>
    intro seen
    rw [translateEdges]
    simp
  | cons rec rest ih =>
    intro seen
    obtain ⟨s, t, lab⟩ := rec
    rw [translateEdges]
    split
    · next sl tl hLs hLt =>
      split
      · next hcond =>
        refine ⟨?_, ?_⟩
        · intro p hp
          rcases List.mem_cons.mp hp with h | h
          · exact h ▸ hcond.2
          · exact fun hps => (ih ((sl, tl, lab) :: seen)).1 p h
              (List.mem_cons_of_mem _ hps)
        · rw [List.nodup_cons]
          exact ⟨fun hq => (ih ((sl, tl, lab) :: seen)).1 _ hq
            (List.mem_cons_self _ _), (ih ((sl, tl, lab) :: seen)).2⟩
      · exact ih seen
    · next =>
      exact ih seen

/-- A pure two-element cycle of ExplicitAssertion-tagged lines: the DFS marks
both lines visited, finds each line's only parent already on the path, and
returns no real source at all. -/
theorem resolve_two_cycle (a b : Nat) (hab : a ≠ b) :
    resolveWork [(a, b), (b, a)] (fun _ => ["ExplicitAssertion"]) [a] [] = [] := by
  have hba : b ≠ a := fun h => hab h.symm
  have hpa : parentsOf [(a, b), (b, a)] a = [b] := by
    simp [parentsOf, List.filter, hba]
  have hpb : parentsOf [(a, b), (b, a)] b = [a] := by
    simp [parentsOf, List.filter, hab]
  have hsb : ¬(shouldBypass ["ExplicitAssertion"] = false) := by decide
  rw [resolveWork, dif_neg (List.not_mem_nil a), dif_neg hsb,
    dif_neg (by simp [hpa]), hpa]
  rw [List.cons_append, List.nil_append]
  rw [resolveWork, dif_neg (by simp [hba] : ¬ b ∈ [a]), dif_neg hsb,
    dif_neg (by simp [hpb]), hpb]
  rw [List.cons_append, List.nil_append]
  rw [resolveWork, dif_pos (by simp : a ∈ [b, a])]
  rw [resolveWork]

/-! Concrete data shared by the witnesses and counterexamples below. -/

/-- A small id-to-line map: node a on line 1, node b on line 2, node c on
line 3. -/
def demoToLine : String → Option Nat := fun s =>
  if s = ("a") then some 1
  else if s = ("b") then some 2
  else if s = ("c") then some 3
  else none

/-- An id-to-file map placing every node in the analyzed file f. -/
def demoToFile : String → Option String := fun _ => some ("f")

/-- Categories tagging line 2 as an explicit assertion. -/
def demoCats : Nat → List String := fun n =>
  if n = 2 then [("ExplicitAssertion")] else []

/-- C1: bypass correctness.  For every edge `(r, t)` of the graph produced
after bypass resolution, either `r` does not carry the ExplicitAssertion
category, or `r` has no parents in the raw intra-file edge set (the terminal
fallback): bypass resolution never emits an ExplicitAssertion-tagged line
that still has upstream causes as an edge source. -/
theorem c1_bypass_terminal (edges : List (Nat × Nat))
    (cats : Nat → List String) :
    ∀ p ∈ finalEdges edges cats,
      shouldBypass (cats p.1) = false ∨ parentsOf edges p.1 = [] := by
  intro p hp
  have hp' := dedupPairs_subset _ _ p hp
  simp only [resolvedPairs, List.mem_flatten, List.mem_map] at hp'
  obtain ⟨l, ⟨e, he, rfl⟩, hpl⟩ := hp'
  obtain ⟨r, hr, rfl⟩ := List.mem_map.mp hpl
  exact (resolveWork_mem edges cats [e.1] [] r (List.mem_filter.mp hr).1).1

/-- C1 witness: edges 1→2→3 with line 2 tagged ExplicitAssertion; the bypass
rewrites the edge into line 3 to source line 1, and the theorem applied to
the resolved edge (1, 3) confirms line 1 is a terminal. -/
theorem c1_bypass_terminal_witness :
    (1, 3) ∈ finalEdges [(1, 2), (2, 3)] demoCats ∧
    (shouldBypass (demoCats 1) = false ∨ parentsOf [(1, 2), (2, 3)] 1 = []) := by
  have e1 : resolveWork [(1, 2), (2, 3)] demoCats [1] [] = [1] := by
    rw [resolveWork, dif_neg (List.not_mem_nil 1),
      dif_pos (by decide : shouldBypass (demoCats 1) = false)]
    rw [resolveWork]
  have e2 : resolveWork [(1, 2), (2, 3)] demoCats [2] [] = [1] := by
    have hp2 : parentsOf [(1, 2), (2, 3)] 2 = [1] := by decide
    rw [resolveWork, dif_neg (List.not_mem_nil 2),
      dif_neg (by decide : ¬(shouldBypass (demoCats 2) = false)),
      dif_neg (by simp [hp2]), hp2]
    rw [List.cons_append, List.nil_append]
    rw [resolveWork, dif_neg (by decide : ¬ (1 : Nat) ∈ [2]),
      dif_pos (by decide : shouldBypass (demoCats 1) = false)]
    rw [resolveWork]
  have hmem : (1, 3) ∈ finalEdges [(1, 2), (2, 3)] demoCats := by
    simp [finalEdges, resolvedPairs, resolveRealSources, e1, e2, dedupPairs]
  exact ⟨hmem, c1_bypass_terminal [(1, 2), (2, 3)] demoCats (1, 3) hmem⟩

/-- C2 counterexample: the input with the cyclic chain 1 ⇄ 2 where both
lines are ExplicitAssertion-tagged.  Resolution of line 1 terminates but
yields the empty source list — not line 1 as its own real source — and the
ensuing graph has no edges at all: the claimed fallback to the cyclic node
does not happen. -/
theorem c2_counterexample :
    resolveRealSources [(1, 2), (2, 1)] (fun _ => ["ExplicitAssertion"]) 1 = [] ∧
    finalEdges [(1, 2), (2, 1)] (fun _ => ["ExplicitAssertion"]) = [] := by
  have h1 : resolveWork [(1, 2), (2, 1)] (fun _ => ["ExplicitAssertion"]) [1] []
      = [] := resolve_two_cycle 1 2 (by decide)
  have hp2 : parentsOf [(1, 2), (2, 1)] 2 = [1] := by decide
  have hp1 : parentsOf [(1, 2), (2, 1)] 1 = [2] := by decide
  have hsb : ¬(shouldBypass ["ExplicitAssertion"] = false) := by decide
  have h2 : resolveWork [(1, 2), (2, 1)] (fun _ => ["ExplicitAssertion"]) [2] []
      = [] := by
    rw [resolveWork, dif_neg (List.not_mem_nil 2), dif_neg hsb,
      dif_neg (by simp [hp2]), hp2]
    rw [List.cons_append, List.nil_append]
    rw [resolveWork, dif_neg (by decide : ¬ (1 : Nat) ∈ [2]), dif_neg hsb,
      dif_neg (by simp [hp1]), hp1]
    rw [List.cons_append, List.nil_append]
    rw [resolveWork, dif_pos (by decide : (2 : Nat) ∈ [1, 2])]
    rw [resolveWork]
  exact ⟨h1, by simp [finalEdges, resolvedPairs, resolveRealSources, h1, h2,
    dedupPairs]⟩

/-- C2 amended: bypass resolution always terminates and the per-resolution
visited set guarantees that no collected real source lies on the already
visited path (a line on the current resolution path is never revisited); but
for a cyclic chain of ExplicitAssertion-tagged lines the resolution of a
line on the cycle yields the empty set of real sources — the edge is dropped
— rather than the cyclic node itself. -/
theorem c2_cycle_guarded_empty :
    (∀ (edges : List (Nat × Nat)) (cats : Nat → List String)
        (stack visited : List Nat) (r : Nat),
        r ∈ resolveWork edges cats stack visited → r ∉ visited) ∧
    (∀ a b : Nat, a ≠ b →
        resolveRealSources [(a, b), (b, a)] (fun _ => ["ExplicitAssertion"]) a
          = []) := by
  constructor
  · intro edges cats stack visited r hr
    exact (resolveWork_mem edges cats stack visited r hr).2
  · intro a b hab
    exact resolve_two_cycle a b hab

/-- C3 counterexample: two raw edge records between nodes a (line 1) and
b (line 2) with different labels.  The derived edge file keeps both rows —
its dedup key includes the label — while the in-memory edge set keeps one
edge, so dedup by the line pair alone fails for the derived file. -/
theorem c3_counterexample :
    translateEdges demoToLine
      [(("a"), ("b"), ("l1")), (("a"), ("b"), ("l2"))] [] =
      [(1, 2, ("l1")), (1, 2, ("l2"))] ∧
    rawEdges demoToLine demoToFile ("f") [(("a"), ("b")), (("a"), ("b"))] [] =
      [(1, 2)] := by
  constructor <;> rfl

/-- C3 amended: the in-memory edge set is deduplicated by the
`(source, target)` pair alone (no pair repeats, and the loop never consults
labels), but the derived edge file is deduplicated by the full
`(source line, target line, label)` row key, so two records that resolve to
the same line pair under different labels each produce a row. -/
theorem c3_dedup_keys (nodeToLine : String → Option Nat)
    (rL : String → Option Nat) (rF : String → Option String) (an : String)
    (erecords : List (String × String × String))
    (records : List (String × String)) :
    (rawEdges rL rF an records []).Nodup ∧
    (translateEdges nodeToLine erecords []).Nodup :=
  ⟨(rawEdges_nodup rL rF an records []).2,
   (translateEdges_nodup nodeToLine erecords []).2⟩

/-- C4: a raw edge record enters the intra-file edge set only if both
endpoints resolve through the id-to-line map, both endpoints' files equal
the analyzed file, and the resolved lines differ; an edge with an endpoint
in a different file never enters the intra-file edge set. -/
theorem c4_intra_file_edges (rL : String → Option Nat)
    (rF : String → Option String) (an : String)
    (records : List (String × String)) :
    ∀ p ∈ rawEdges rL rF an records [],
      ∃ r ∈ records, rL r.1 = some p.1 ∧ rF r.1 = some an ∧
        rL r.2 = some p.2 ∧ rF r.2 = some an ∧ p.1 ≠ p.2 :=
  fun p hp => rawEdges_spec rL rF an records [] p hp

/-- C4 witness: the single record (a, b) of the analyzed file f produces the
kept edge (1, 2), and the theorem recovers the record with its resolutions. -/
theorem c4_intra_file_edges_witness :
    ∃ r ∈ [(("a" : String), ("b" : String))],
      demoToLine r.1 = some 1 ∧ demoToFile r.1 = some ("f") ∧
      demoToLine r.2 = some 2 ∧ demoToFile r.2 = some ("f") ∧
      (1 : Nat) ≠ 2 :=
  c4_intra_file_edges demoToLine demoToFile ("f") [(("a"), ("b"))] (1, 2)
    (by decide)

/-- C5: for every built graph, no edge of the raw line-projected edge set
has equal source and target, no edge of the final edge set after bypass
resolution has equal source and target, and the final edge set repeats no
`(source, target)` pair. -/
theorem c5_no_self_no_dup (rL : String → Option Nat)
    (rF : String → Option String) (an : String)
    (records : List (String × String)) (cats : Nat → List String) :
    (∀ p ∈ rawEdges rL rF an records [], p.1 ≠ p.2) ∧
    (∀ p ∈ finalEdges (rawEdges rL rF an records []) cats, p.1 ≠ p.2) ∧
    (finalEdges (rawEdges rL rF an records []) cats).Nodup := by
  refine ⟨?_, ?_, (dedupPairs_nodup _ _).2⟩
  · intro p hp
    obtain ⟨r, _, _, _, _, _, hne⟩ := rawEdges_spec rL rF an records [] p hp
    exact hne
  · intro p hp
    have hp' := dedupPairs_subset _ _ p hp
    simp only [resolvedPairs, List.mem_flatten, List.mem_map] at hp'
    obtain ⟨l, ⟨e, he, rfl⟩, hpl⟩ := hp'
    obtain ⟨r, hr, rfl⟩ := List.mem_map.mp hpl
    have hne := (List.mem_filter.mp hr).2
    simpa using hne

/-- C5 witness: records (a, b) and (b, c) with no bypassing category give the
raw edges (1, 2), (2, 3); the theorem applied to the final edge (1, 2)
discharges the membership hypothesis concretely. -/
theorem c5_no_self_no_dup_witness :
    (1, 2) ∈ finalEdges
      (rawEdges demoToLine demoToFile ("f") [(("a"), ("b")), (("b"), ("c"))] [])
      (fun _ => []) ∧ (1 : Nat) ≠ 2 := by
  have hraw : rawEdges demoToLine demoToFile ("f")
      [(("a"), ("b")), (("b"), ("c"))] [] = [(1, 2), (2, 3)] := by rfl
  have e1 : resolveWork [(1, 2), (2, 3)] (fun _ => ([] : List String)) [1] []
      = [1] := by
    rw [resolveWork, dif_neg (List.not_mem_nil 1), dif_pos (by decide :
      shouldBypass ((fun _ : Nat => ([] : List String)) 1) = false)]
    rw [resolveWork]
  have e2 : resolveWork [(1, 2), (2, 3)] (fun _ => ([] : List String)) [2] []
      = [2] := by
    rw [resolveWork, dif_neg (List.not_mem_nil 2), dif_pos (by decide :
      shouldBypass ((fun _ : Nat => ([] : List String)) 2) = false)]
    rw [resolveWork]
  have hmem : (1, 2) ∈ finalEdges
      (rawEdges demoToLine demoToFile ("f") [(("a"), ("b")), (("b"), ("c"))] [])
      (fun _ => []) := by
    rw [hraw]
    simp [finalEdges, resolvedPairs, resolveRealSources, e1, e2, dedupPairs]
  exact ⟨hmem, (c5_no_self_no_dup demoToLine demoToFile ("f")
    [(("a"), ("b")), (("b"), ("c"))] (fun _ => [])).2.1 (1, 2) hmem⟩

/-! ## Highlight query engine (webview: highlightNodeAndDependencies and
applyFilters)

The webview computes, for the selected node, its direct neighbors in the
chosen direction (incomers/outgoers), the reachable set when indirect mode is
on (predecessors/successors), subtracts the direct set to obtain the indirect
set, and reports only nodes whose category list has at least one enabled
filter category — the selected node itself always passing the filter. -/

/-- A vertex of the built line graph with its accumulated categories. -/
structure GraphNodeV where
  line : Nat
  cats : List String

/-- The immutable graph the webview queries. -/
structure LineGraph where
  nodes : List GraphNodeV
  edges : List (Nat × Nat)

/-- Categories of the vertex on line `n` (empty when the line has no
vertex, as the webview's default supplies). -/
def nodeCats (g : LineGraph) (n : Nat) : List String :=
  match g.nodes.find? (fun v => v.line = n) with
  | some v => v.cats
  | none => []

/-- Direct successors (outgoers) of line `n`. -/
def outNeighbors (g : LineGraph) (n : Nat) : List Nat :=
  ((g.edges.filter (fun e => e.1 = n)).map Prod.snd).dedup

/-- Direct predecessors (incomers) of line `n`. -/
def inNeighbors (g : LineGraph) (n : Nat) : List Nat :=
  ((g.edges.filter (fun e => e.2 = n)).map Prod.fst).dedup

/-- One step in the chosen direction: outgoers in dependents mode, incomers
in dependencies mode. -/
def stepNeighbors (g : LineGraph) (dependents : Bool) (n : Nat) : List Nat :=
  if dependents then outNeighbors g n else inNeighbors g n

/-- One round of closing a node set under the step function. -/
def closureStep (next : Nat → List Nat) (acc : List Nat) : List Nat :=
  (acc ++ (acc.map next).flatten).dedup

/-- Iterated closure: enough rounds reach the fixed point. -/
def closureAux (next : Nat → List Nat) : Nat → List Nat → List Nat
  | 0, acc => acc
  | fuel + 1, acc => closureAux next fuel (closureStep next acc)

/-- The transitive reach of the selected node in the chosen direction
(cytoscape's successors/predecessors): the direct neighbors closed under the
step function. -/
def reachableSet (g : LineGraph) (dependents : Bool) (n : Nat) : List Nat :=
  closureAux (stepNeighbors g dependents) g.edges.length
    (stepNeighbors g dependents n)

/-- applyFilters visibility: a node is visible when at least one of its
categories is enabled in the filter state. -/
def visibleUnderFilter (enabled : List String) (cats : List String) : Bool :=
  cats.any (fun c => decide (c ∈ enabled))

/-- The line sets a query reports to the consumer. -/
structure QueryOut where
  direct : List Nat
  indirect : List Nat

/-- One highlight query: direct neighbors, indirect = reachable minus
direct when indirect mode is on, both restricted to nodes passing the
category filter; the selected node always passes. -/
def highlightQuery (g : LineGraph) (dependents showIndirect : Bool)
    (sel : Nat) (enabled : List String) : QueryOut :=
  let direct := stepNeighbors g dependents sel
  let indirectBase :=
    if showIndirect then
      (reachableSet g dependents sel).filter (fun n => ¬ n ∈ direct)
    else []
  let keep : Nat → Bool := fun n =>
    decide (n = sel) || visibleUnderFilter enabled (nodeCats g n)
  ⟨direct.filter keep, indirectBase.filter keep⟩

theorem filter_subset_of_imp {α : Type} (l : List α) (p q : α → Bool)
    (h : ∀ a, p a = true → q a = true) : l.filter p ⊆ l.filter q := by
  intro a ha
  have hm := List.mem_filter.mp ha
  exact List.mem_filter.mpr ⟨hm.1, h a hm.2⟩

theorem visibleUnderFilter_mono {enabled : List String} {c : String}
    (cats : List String)
    (h : visibleUnderFilter (enabled.erase c) cats = true) :
    visibleUnderFilter enabled cats = true := by
  simp only [visibleUnderFilter, List.any_eq_true, decide_eq_true_eq] at h ⊢
  obtain ⟨x, hx, hcx⟩ := h
  exact ⟨x, hx, List.erase_subset _ _ hcx⟩

/-- C6: filter monotonicity.  For every graph, direction, depth mode,
selected line and filter state, disabling one additional category produces
reported direct and indirect line sets that are subsets of those reported
under the previous filter state — disabling a category can only remove
lines from a query result, never add any. -/
theorem c6_filter_monotone (g : LineGraph) (dependents showIndirect : Bool)
    (sel : Nat) (enabled : List String) (c : String) :
    (highlightQuery g dependents showIndirect sel (enabled.erase c)).direct ⊆
      (highlightQuery g dependents showIndirect sel enabled).direct ∧
    (highlightQuery g dependents showIndirect sel (enabled.erase c)).indirect ⊆
      (highlightQuery g dependents showIndirect sel enabled).indirect := by
  have hkeep : ∀ n : Nat,
      (decide (n = sel) ||
        visibleUnderFilter (enabled.erase c) (nodeCats g n)) = true →
      (decide (n = sel) || visibleUnderFilter enabled (nodeCats g n)) = true := by
    intro n hn
    simp only [Bool.or_eq_true] at hn ⊢
    rcases hn with h | h
    · exact Or.inl h
    · exact Or.inr (visibleUnderFilter_mono _ h)
  exact ⟨filter_subset_of_imp _ _ _ hkeep, filter_subset_of_imp _ _ _ hkeep⟩

end DepAnalysis
